import Mathlib

/-!
Verification development for the classification engine of
rylorin/pp-portfolio-classifier (src/classifier.ts).

The definitions below are a shallow embedding of the TypeScript source:
JavaScript numbers are modelled as rationals, JavaScript truthiness checks
are made explicit, and in-place array mutation is modelled by returning the
updated list (a separate heap model captures the aliasing behaviour of
applyEmbeddedTaxonomies).
-/

namespace PPClassifier

/-- JavaScript Math.round on rationals: round half toward positive infinity. -/
def jsRound (q : ℚ) : ℤ := ⌊q + 1/2⌋

/-- An Assignment, as in classifier.ts: a category path (root to leaf) and a
weight. Weights are basis points but may be fractional before normalization,
since assignItems computes value * 100 on a floating-point value. -/
structure Assignment where
  path : List String
  weight : ℚ
deriving DecidableEq, Repr

/-- Embeds private pathEquals of classifier.ts: same length and element-wise
equal segments. -/
def pathEquals (p1 p2 : List String) : Bool :=
  p1.length == p2.length && (List.zip p1 p2).all fun s => s.1 == s.2

/-- A TaxonomyResult, as in types.ts: the taxonomy id together with its
accumulated assignment list. -/
structure TaxonomyResult where
  taxonomyId : String
  assignments : List Assignment
deriving DecidableEq, Repr

/-- An EmbeddedTaxonomyConfig, as in types.ts: one directed
nest-child-under-parent-category relation. -/
structure EmbeddedTaxonomyConfig where
  active : Bool
  parentTaxonomy : String
  parentCategory : String
  childTaxonomy : String
  targetTaxonomy : String
deriving DecidableEq, Repr

/-- The value stored in a mapping table for one raw key.  In the JavaScript
source this is `string | string[]` and may also be explicitly null. -/
inductive MappingTarget where
  | nullTarget : MappingTarget
  | single : String → MappingTarget
  | multi : List String → MappingTarget
deriving DecidableEq, Repr

/-- Embeds `if (targetClass) { const path = Array.isArray(targetClass) ?
targetClass : [targetClass]; ... }`: null and the empty string are falsy and
discard the key; an array (even empty) is truthy and used verbatim. -/
def MappingTarget.toPath : MappingTarget → Option (List String)
  | .nullTarget => none
  | .single s => if s = "" then none else some [s]
  | .multi l => some l

/-- A mapping table (a JavaScript object with unique keys). -/
abbrev Mapping := List (String × MappingTarget)

/-- Key lookup in a mapping table: `key in mapping` plus `mapping[key]`. -/
def mlookup : Mapping → String → Option MappingTarget
  | [], _ => none
  | e :: rest, k => if e.1 = k then some e.2 else mlookup rest k

/-- A raw provider breakdown item, restricted to the two fields the
classifier reads: `item[taxConfig.keyField]` and `item[taxConfig.valueField]`.
`none` models an absent field. -/
structure RawItem where
  key : Option String
  value : Option ℚ
deriving DecidableEq, Repr

/-- In-place accumulation on the first assignment with an equal path, as done
by `existingAssignment.weight += weight` on the object found by
`assignments.find(...)`. -/
def addToFirst : List Assignment → List String → ℚ → List Assignment
  | [], _, _ => []
  | a :: rest, path, w =>
    if pathEquals a.path path then ⟨a.path, a.weight + w⟩ :: rest
    else a :: addToFirst rest path w

/-- Embeds the accumulate-or-push pattern of assignItems: if an assignment
with the same path exists its weight is increased, otherwise a new assignment
is pushed at the end. -/
def accumulate (assignments : List Assignment) (path : List String) (w : ℚ) :
    List Assignment :=
  if assignments.any fun a => pathEquals a.path path then
    addToFirst assignments path w
  else
    assignments ++ [⟨path, w⟩]

/-- One iteration of the item loop in assignItems (classifier.ts, current
version): JavaScript truthiness `if (key && value)` requires a present,
non-empty key and a present, non-zero value; the weight is value * 100 with
no rounding; with an empty mapping table the key becomes a one-segment path
with no positivity check; with a non-empty table the key must be mapped, the
target must be truthy, and only strictly positive weights are accumulated. -/
def assignStep (mapping : Mapping) (assignments : List Assignment)
    (item : RawItem) : List Assignment :=
  match item.key, item.value with
  | some key, some value =>
    if key ≠ "" ∧ value ≠ 0 then
      let weight : ℚ := value * 100
      if mapping = [] then
        accumulate assignments [key] weight
      else
        match mlookup mapping key with
        | some target =>
          match target.toPath with
          | some path =>
            if 0 < weight then accumulate assignments path weight
            else assignments
          | none => assignments
        | none => assignments
    else assignments
  | _, _ => assignments

/-- Embeds assignItems of classifier.ts: fold the item loop over the list of
items to process, threading the accumulating assignment list. -/
def assignItems (mapping : Mapping) (itemsToProcess : List RawItem)
    (assignments : List Assignment) : List Assignment :=
  itemsToProcess.foldl (assignStep mapping) assignments

/-- Total weight of an assignment list (reduce with sum). -/
def totalWeight (l : List Assignment) : ℚ := (l.map fun a => a.weight).sum

/-- Rounding step of normalizeBreakdown: Math.round on the weight. -/
def roundAssignment (a : Assignment) : Assignment :=
  ⟨a.path, ((jsRound a.weight : ℤ) : ℚ)⟩

/-- Stable insertion into a list sorted by descending weight: the new element
goes before the first element whose weight does not exceed it. -/
def insertDesc (a : Assignment) : List Assignment → List Assignment
  | [] => [a]
  | b :: l => if b.weight ≤ a.weight then a :: b :: l else b :: insertDesc a l

/-- Embeds `result.sort((a, b) => b.weight - a.weight)`: ECMAScript sort is
stable, so this is the stable sort by descending weight. -/
def sortDesc : List Assignment → List Assignment
  | [] => []
  | a :: l => insertDesc a (sortDesc l)

/-- Embeds the truncation loop of normalizeBreakdown: walk the sorted list
with a running total; an entry that would push the total past 10000 is cut
to the remaining headroom and the total is set to 10000, so every later
positive entry is cut to zero.  The `delete result[i]` on a zero cut leaves a
hole that the final positivity filter removes, so holes are modelled as
zero-weight entries. -/
def truncateLoop (budget : ℚ) : List Assignment → List Assignment
  | [] => []
  | a :: rest =>
    if 10000 < budget + a.weight then
      ⟨a.path, 10000 - budget⟩ :: truncateLoop 10000 rest
    else
      a :: truncateLoop (budget + a.weight) rest

/-- Embeds normalizeBreakdown of classifier.ts: drop non-positive weights,
round the remaining weights, truncate when the total exceeds 10000, and
filter non-positive weights from the result. -/
def normalizeBreakdown (assignments : List Assignment) : List Assignment :=
  let result := (assignments.filter fun a => 0 < a.weight).map roundAssignment
  let result :=
    if 10000 < totalWeight result then truncateLoop 0 (sortDesc result)
    else result
  result.filter fun a => 0 < a.weight

/-- The find predicate of findCategoryWeight:
`a.path.length === 1 && a.path[0] === category`. -/
def isCategoryEntry (category : String) (a : Assignment) : Bool :=
  a.path.length == 1 && a.path.getD 0 "" == category

/-- Embeds findCategoryWeight of classifier.ts: the weight of the first
assignment whose path is exactly the one-segment path of the category,
or 0 when there is none. -/
def findCategoryWeight : List Assignment → String → ℚ
  | [], _ => 0
  | a :: rest, category =>
    if isCategoryEntry category a then a.weight
    else findCategoryWeight rest category

/-- The per-security results map, Map of taxonomy id to TaxonomyResult,
modelled as an association list in insertion order. -/
abbrev ResultsMap := List (String × TaxonomyResult)

/-- Map lookup: results.get(key). -/
def mapGet : ResultsMap → String → Option TaxonomyResult
  | [], _ => none
  | e :: rest, k => if e.1 = k then some e.2 else mapGet rest k

/-- Overwrite the assignment list held by the entry for a key, modelling the
in-place `targetResult.assignments = ...` on the object stored in the map. -/
def mapSetAssignments (m : ResultsMap) (k : String) (l : List Assignment) :
    ResultsMap :=
  m.map fun e => if e.1 = k then (e.1, ⟨e.2.taxonomyId, l⟩) else e

/-- One iteration of the config loop of applyEmbeddedTaxonomies: skip
inactive configs, skip if any of the three taxonomies is missing, skip if the
parent category is absent or has weight 0; otherwise prefix the parent
category to every child path, multiply the weights in basis points with
Math.round, remove the flat parent-category entry from the target and append
the embedded assignments. -/
def applyOneEmbedding (results : ResultsMap) (cfg : EmbeddedTaxonomyConfig) :
    ResultsMap :=
  if cfg.active = false then results else
  match mapGet results cfg.parentTaxonomy, mapGet results cfg.childTaxonomy,
      mapGet results cfg.targetTaxonomy with
  | some parentResult, some childResult, some targetResult =>
    let parentWeight :=
      findCategoryWeight parentResult.assignments cfg.parentCategory
    if parentWeight = 0 then results
    else
      let embeddedAssignments := childResult.assignments.map fun c =>
        (⟨cfg.parentCategory :: c.path,
          ((jsRound (parentWeight * c.weight / 10000) : ℤ) : ℚ)⟩ : Assignment)
      let newTarget :=
        (targetResult.assignments.filter fun a =>
          !(pathEquals a.path [cfg.parentCategory])) ++ embeddedAssignments
      mapSetAssignments results cfg.targetTaxonomy newTarget
  | _, _, _ => results

/-- Embeds applyEmbeddedTaxonomies of classifier.ts as a pure function: the
configs are applied in declaration order, threading the evolving map.  The
initial clone of the map is the identity in this pure value semantics; the
heap model below accounts for the aliasing. -/
def applyEmbeddedTaxonomies (securityResults : ResultsMap)
    (configs : List EmbeddedTaxonomyConfig) : ResultsMap :=
  configs.foldl applyOneEmbedding securityResults

/-- The writes handed to the external store by the final loop of
classifyFund: one write per map entry whose taxonomy config is active, with
the assignment list normalized first. -/
def fundWrites (active : String → Bool) (results : ResultsMap) :
    List (String × List Assignment) :=
  results.filterMap fun e =>
    if active e.1 then some (e.1, normalizeBreakdown e.2.assignments) else none

/-- The writes handed to the external store by the final loop of
classifyStock: one write per map entry whose taxonomy config is active, with
the assignment list passed through unchanged (no normalizeBreakdown call). -/
def stockWrites (active : String → Bool) (results : ResultsMap) :
    List (String × List Assignment) :=
  results.filterMap fun e =>
    if active e.1 then some (e.1, e.2.assignments) else none

/-- Duplicate-path check on an assignment list: true iff no two entries have
element-wise equal paths. -/
def pathsUnique : List Assignment → Bool
  | [] => true
  | a :: rest =>
    !(rest.any fun b => pathEquals a.path b.path) && pathsUnique rest

/-! ### Basic lemmas about the embedded operations -/

theorem pathEquals_iff (p1 p2 : List String) : pathEquals p1 p2 = true ↔ p1 = p2 := by
  induction p1 generalizing p2 with
  | nil => cases p2 <;> simp [pathEquals]
  | cons a l ih =>
    cases p2 with
    | nil => simp [pathEquals]
    | cons b m =>
      simp only [pathEquals, List.length_cons, List.zip_cons_cons, List.all_cons,
        Bool.and_eq_true, beq_iff_eq] at ih ⊢
      rw [List.cons.injEq]
      constructor
      · rintro ⟨hlen, hab, hall⟩
        exact ⟨hab, (ih m).mp ⟨by omega, hall⟩⟩
      · rintro ⟨hab, hlm⟩
        obtain ⟨hlen, hall⟩ := (ih m).mpr hlm
        exact ⟨by omega, hab, hall⟩

theorem totalWeight_nil : totalWeight [] = 0 := rfl

theorem totalWeight_cons (a : Assignment) (l : List Assignment) :
    totalWeight (a :: l) = a.weight + totalWeight l := by
  simp [totalWeight]

theorem mem_insertDesc (a b : Assignment) (l : List Assignment) :
    a ∈ insertDesc b l ↔ a = b ∨ a ∈ l := by
  induction l with
  | nil => simp [insertDesc]
  | cons c m ih =>
    by_cases h : c.weight ≤ b.weight
    · simp [insertDesc, h]
    · simp [insertDesc, h, ih]
      tauto

theorem mem_sortDesc (a : Assignment) (l : List Assignment) :
    a ∈ sortDesc l ↔ a ∈ l := by
  induction l with
  | nil => simp [sortDesc]
  | cons b m ih => simp [sortDesc, mem_insertDesc, ih]

theorem filter_pos_cons (a : Assignment) (l : List Assignment) :
    ((a :: l).filter fun x => 0 < x.weight) =
      if 0 < a.weight then a :: l.filter (fun x => 0 < x.weight)
      else l.filter fun x => 0 < x.weight := by
  by_cases hp : 0 < a.weight <;> simp [List.filter_cons, hp]

theorem totalWeight_filter_pos_eq (l : List Assignment)
    (h : ∀ a ∈ l, 0 ≤ a.weight) :
    totalWeight (l.filter fun a => 0 < a.weight) = totalWeight l := by
  induction l with
  | nil => rfl
  | cons a m ih =>
    have ha := h a (by simp)
    have ih2 := ih fun b hb => h b (by simp [hb])
    rw [filter_pos_cons]
    by_cases hp : 0 < a.weight
    · rw [if_pos hp, totalWeight_cons, totalWeight_cons, ih2]
    · have ha0 : a.weight = 0 := le_antisymm (not_lt.mp hp) ha
      rw [if_neg hp, totalWeight_cons, ih2, ha0, zero_add]

theorem totalWeight_filter_pos_nonneg (l : List Assignment) :
    0 ≤ totalWeight (l.filter fun a => 0 < a.weight) := by
  induction l with
  | nil => simp [totalWeight_nil]
  | cons a m ih =>
    rw [filter_pos_cons]
    by_cases hp : 0 < a.weight
    · rw [if_pos hp, totalWeight_cons]
      linarith
    · rw [if_neg hp]
      exact ih

theorem truncateLoop_budget_full (l : List Assignment)
    (h : ∀ a ∈ l, 0 ≤ a.weight) :
    ∀ a ∈ truncateLoop 10000 l, a.weight = 0 := by
  induction l with
  | nil => simp [truncateLoop]
  | cons b m ih =>
    have hb := h b (by simp)
    intro a ha
    by_cases hcut : (10000 : ℚ) < 10000 + b.weight
    · simp only [truncateLoop, hcut, if_true] at ha
      rcases List.mem_cons.mp ha with rfl | ha2
      · simp
      · exact ih (fun c hc => h c (by simp [hc])) a ha2
    · have hb0 : b.weight = 0 := le_antisymm (by linarith [not_lt.mp hcut]) hb
      simp only [truncateLoop, hcut, if_false, hb0, add_zero] at ha
      rcases List.mem_cons.mp ha with rfl | ha2
      · exact hb0
      · exact ih (fun c hc => h c (by simp [hc])) a ha2

theorem truncateLoop_filter_sum_le (l : List Assignment) :
    ∀ budget : ℚ, (∀ a ∈ l, 0 ≤ a.weight) → budget ≤ 10000 →
    totalWeight ((truncateLoop budget l).filter fun a => 0 < a.weight) ≤
      10000 - budget := by
  induction l with
  | nil =>
    intro budget _ hb
    simp [truncateLoop, totalWeight_nil]
    linarith
  | cons a m ih =>
    intro budget h hb
    have ha := h a (by simp)
    have hm : ∀ c ∈ m, 0 ≤ c.weight := fun c hc => h c (by simp [hc])
    by_cases hcut : (10000 : ℚ) < budget + a.weight
    · simp only [truncateLoop, hcut, if_true]
      have hrest : ∀ c ∈ truncateLoop 10000 m, c.weight = 0 :=
        truncateLoop_budget_full m hm
      have hrest2 :
          totalWeight ((truncateLoop 10000 m).filter fun c => 0 < c.weight) = 0 := by
        have hnil : (truncateLoop 10000 m).filter (fun c => 0 < c.weight) = [] := by
          rw [List.filter_eq_nil_iff]
          intro c hc
          simp [hrest c hc]
        simp [hnil, totalWeight_nil]
      rw [filter_pos_cons]
      by_cases hpos : (0 : ℚ) <
          (Assignment.mk a.path (10000 - budget)).weight
      · rw [if_pos hpos, totalWeight_cons, hrest2]
        simp
      · rw [if_neg hpos, hrest2]
        linarith
    · have hle : budget + a.weight ≤ 10000 := not_lt.mp hcut
      simp only [truncateLoop, hcut, if_false]
      have ih2 := ih (budget + a.weight) hm hle
      rw [filter_pos_cons]
      by_cases hpos : (0 : ℚ) < a.weight
      · rw [if_pos hpos, totalWeight_cons]
        linarith
      · rw [if_neg hpos]
        linarith

/-! ### Rounding and the normalizer invariants -/

theorem jsRound_intCast (n : ℤ) : jsRound ((n : ℚ)) = n := by
  unfold jsRound
  rw [Int.floor_int_add]
  norm_num

theorem roundAssignment_of_int (a : Assignment) (h : ∃ n : ℤ, a.weight = (n : ℚ)) :
    roundAssignment a = a := by
  obtain ⟨n, hn⟩ := h
  unfold roundAssignment
  rw [hn, jsRound_intCast, ← hn]

/-- Unfolding lemma for normalizeBreakdown with the let bindings resolved. -/
theorem normalizeBreakdown_eq (x : List Assignment) :
    normalizeBreakdown x =
      (if 10000 < totalWeight ((x.filter fun a => 0 < a.weight).map roundAssignment)
       then truncateLoop 0
         (sortDesc ((x.filter fun a => 0 < a.weight).map roundAssignment))
       else (x.filter fun a => 0 < a.weight).map roundAssignment).filter
        fun a => 0 < a.weight := rfl

theorem mem_rounded_facts (x : List Assignment) :
    ∀ a ∈ (x.filter fun b => 0 < b.weight).map roundAssignment,
      0 ≤ a.weight ∧ ∃ n : ℤ, a.weight = (n : ℚ) := by
  intro a ha
  rw [List.mem_map] at ha
  obtain ⟨b, hb, rfl⟩ := ha
  have hbpos : 0 < b.weight := by
    rw [List.mem_filter] at hb
    simpa using hb.2
  refine ⟨?_, jsRound b.weight, rfl⟩
  have hz : (0 : ℤ) ≤ jsRound b.weight := by
    unfold jsRound
    rw [Int.le_floor]
    push_cast
    linarith
  simpa [roundAssignment] using (by exact_mod_cast hz : (0 : ℚ) ≤ (jsRound b.weight : ℚ))

theorem truncateLoop_int (l : List Assignment) :
    ∀ budget : ℚ, (∀ a ∈ l, ∃ n : ℤ, a.weight = (n : ℚ)) →
    (∃ n : ℤ, budget = (n : ℚ)) →
    ∀ a ∈ truncateLoop budget l, ∃ n : ℤ, a.weight = (n : ℚ) := by
  induction l with
  | nil => simp [truncateLoop]
  | cons b m ih =>
    intro budget h hbud
    obtain ⟨nb, hnb⟩ := hbud
    have hm : ∀ c ∈ m, ∃ n : ℤ, c.weight = (n : ℚ) := fun c hc => h c (by simp [hc])
    obtain ⟨nw, hnw⟩ := h b (by simp)
    intro a ha
    by_cases hcut : (10000 : ℚ) < budget + b.weight
    · simp only [truncateLoop, hcut, if_true] at ha
      rcases List.mem_cons.mp ha with rfl | ha2
      · exact ⟨10000 - nb, by push_cast [hnb]; ring⟩
      · exact ih 10000 hm ⟨10000, by norm_num⟩ a ha2
    · simp only [truncateLoop, hcut, if_false] at ha
      rcases List.mem_cons.mp ha with rfl | ha2
      · exact ⟨nw, hnw⟩
      · exact ih (budget + b.weight) hm ⟨nb + nw, by push_cast [hnb, hnw]; ring⟩ a ha2

theorem normalizeBreakdown_mem_pos (x : List Assignment) :
    ∀ a ∈ normalizeBreakdown x, 0 < a.weight := by
  intro a ha
  unfold normalizeBreakdown at ha
  rw [List.mem_filter] at ha
  simpa using ha.2

theorem normalizeBreakdown_mem_int (x : List Assignment) :
    ∀ a ∈ normalizeBreakdown x, ∃ n : ℤ, a.weight = (n : ℚ) := by
  intro a ha
  unfold normalizeBreakdown at ha
  rw [List.mem_filter] at ha
  have ha1 := ha.1
  set rounded := (x.filter fun b => 0 < b.weight).map roundAssignment with hr
  by_cases hbig : 10000 < totalWeight rounded
  · rw [if_pos hbig] at ha1
    refine truncateLoop_int (sortDesc rounded) 0 ?_ ⟨0, by norm_num⟩ a ha1
    intro c hc
    exact (mem_rounded_facts x c ((mem_sortDesc c rounded).mp hc)).2
  · rw [if_neg hbig] at ha1
    exact (mem_rounded_facts x a ha1).2

theorem normalizeBreakdown_total_le (x : List Assignment) :
    totalWeight (normalizeBreakdown x) ≤ 10000 := by
  rw [normalizeBreakdown_eq]
  set rounded := (x.filter fun b => 0 < b.weight).map roundAssignment with hr
  by_cases hbig : 10000 < totalWeight rounded
  · rw [if_pos hbig]
    have h := truncateLoop_filter_sum_le (sortDesc rounded) 0
      (fun c hc => (mem_rounded_facts x c ((mem_sortDesc c rounded).mp hc)).1)
      (by norm_num)
    linarith
  · rw [if_neg hbig]
    have heq := totalWeight_filter_pos_eq rounded
      (fun c hc => (mem_rounded_facts x c hc).1)
    rw [heq]
    linarith [not_lt.mp hbig]

theorem normalizeBreakdown_fixed (y : List Assignment)
    (hpos : ∀ a ∈ y, 0 < a.weight)
    (hint : ∀ a ∈ y, ∃ n : ℤ, a.weight = (n : ℚ))
    (hle : totalWeight y ≤ 10000) :
    normalizeBreakdown y = y := by
  have hfil : (y.filter fun a => 0 < a.weight) = y :=
    List.filter_eq_self.mpr fun a ha => by simpa using hpos a ha
  have hmap : y.map roundAssignment = y := by
    have hc : ∀ a ∈ y, roundAssignment a = a :=
      fun a ha => roundAssignment_of_int a (hint a ha)
    simpa using List.map_congr_left hc
  rw [normalizeBreakdown_eq, hfil, hmap, if_neg (not_lt.mpr hle), hfil]

/-! ### Claim C2 and C10: the normalizer contract and idempotence -/

/-- Claim C2: for every input assignment list, normalizeBreakdown has total
weight at most 10000 and every returned entry has a positive integer weight;
and when the total of the rounded positive input weights is at most 10000
the output is the input up to rounding each weight and removing non-positive
entries. -/
theorem normalizer_contract (x : List Assignment) :
    totalWeight (normalizeBreakdown x) ≤ 10000 ∧
    (∀ a ∈ normalizeBreakdown x, 0 < a.weight ∧ ∃ n : ℤ, a.weight = (n : ℚ)) ∧
    (totalWeight ((x.filter fun a => 0 < a.weight).map roundAssignment) ≤ 10000 →
      normalizeBreakdown x =
        ((x.filter fun a => 0 < a.weight).map roundAssignment).filter
          fun a => 0 < a.weight) := by
  refine ⟨normalizeBreakdown_total_le x,
    fun a ha => ⟨normalizeBreakdown_mem_pos x a ha, normalizeBreakdown_mem_int x a ha⟩,
    fun h => ?_⟩
  rw [normalizeBreakdown_eq, if_neg (not_lt.mpr h)]

/-- Witness for C2 at a concrete list below the threshold. -/
theorem normalizer_contract_witness :
    normalizeBreakdown [⟨["A"], (5 : ℚ)⟩, ⟨["B"], (-3 : ℚ)⟩] =
      (([(⟨["A"], (5 : ℚ)⟩ : Assignment), ⟨["B"], (-3 : ℚ)⟩].filter
        fun a => 0 < a.weight).map roundAssignment).filter fun a => 0 < a.weight := by
  refine (normalizer_contract [⟨["A"], 5⟩, ⟨["B"], -3⟩]).2.2 ?_
  norm_num [totalWeight, roundAssignment, jsRound, List.filter]

/-- Claim C10: the Weight Normalizer is idempotent: normalizing an already
normalized list returns it unchanged, entry for entry and in order. -/
theorem normalize_idempotent (x : List Assignment) :
    normalizeBreakdown (normalizeBreakdown x) = normalizeBreakdown x :=
  normalizeBreakdown_fixed (normalizeBreakdown x)
    (normalizeBreakdown_mem_pos x) (normalizeBreakdown_mem_int x)
    (normalizeBreakdown_total_le x)

/-! ### Claim C1: Scenario A of the spec -/

def scenarioAInput : ResultsMap :=
  [("asset", ⟨"asset", [⟨["Stock"], 8000⟩, ⟨["Bond"], 2000⟩]⟩),
   ("style", ⟨"style", [⟨["Large Growth"], 7000⟩, ⟨["Small Value"], 3000⟩]⟩)]

def scenarioAConfig : EmbeddedTaxonomyConfig :=
  ⟨true, "asset", "Stock", "style", "asset"⟩

def scenarioAExpected : List Assignment :=
  [⟨["Bond"], 2000⟩, ⟨["Stock", "Large Growth"], 5600⟩,
   ⟨["Stock", "Small Value"], 2400⟩]

/-- Claim C1: on Scenario A (parent 80/20 Stock/Bond, child 70/30, one active
config embedding the style taxonomy under the Stock category of the asset
taxonomy), applyEmbeddedTaxonomies produces the claimed target set: the
assignment list is, as a set, Stock/Large Growth 5600, Stock/Small Value
2400, Bond 2000; the embedded weights are round(parent * child / 10000); and
the total is 10000. -/
theorem scenarioA_embedding :
    mapGet (applyEmbeddedTaxonomies scenarioAInput [scenarioAConfig]) "asset" =
      some ⟨"asset", scenarioAExpected⟩ ∧
    scenarioAExpected.Perm
      [⟨["Stock", "Large Growth"], 5600⟩, ⟨["Stock", "Small Value"], 2400⟩,
       ⟨["Bond"], 2000⟩] ∧
    ((5600 : ℚ) = ((jsRound ((8000 : ℚ) * 7000 / 10000) : ℤ) : ℚ) ∧
     (2400 : ℚ) = ((jsRound ((8000 : ℚ) * 3000 / 10000) : ℤ) : ℚ)) ∧
    totalWeight scenarioAExpected = 10000 := by
  refine ⟨?_, ?_, ⟨?_, ?_⟩, ?_⟩
  · norm_num +decide [applyEmbeddedTaxonomies, applyOneEmbedding, mapGet,
      mapSetAssignments, findCategoryWeight, isCategoryEntry, pathEquals, jsRound,
      scenarioAInput, scenarioAConfig, scenarioAExpected, List.foldl, List.filter,
      List.zip]
  · exact @List.perm_append_comm Assignment ([⟨["Bond"], 2000⟩] : List Assignment)
      ([⟨["Stock", "Large Growth"], 5600⟩,
        ⟨["Stock", "Small Value"], 2400⟩] : List Assignment)
  · norm_num [jsRound]
  · norm_num [jsRound]
  · norm_num [scenarioAExpected, totalWeight]

/-! ### Claim C4: positivity of assigner output -/

theorem addToFirst_pos (p : List String) (w : ℚ) :
    ∀ l : List Assignment, (∀ a ∈ l, 0 < a.weight) → 0 < w →
    ∀ a ∈ addToFirst l p w, 0 < a.weight := by
  intro l
  induction l with
  | nil => simp [addToFirst]
  | cons b m ih =>
    intro hl hw a ha
    by_cases h : pathEquals b.path p = true
    · simp only [addToFirst, h, if_true] at ha
      rcases List.mem_cons.mp ha with rfl | ha2
      · have hb := hl b (by simp)
        simp only
        linarith
      · exact hl a (by simp [ha2])
    · simp only [addToFirst, h, if_false] at ha
      rcases List.mem_cons.mp ha with rfl | ha2
      · exact hl a (by simp)
      · exact ih (fun c hc => hl c (by simp [hc])) hw a ha2

theorem accumulate_pos (l : List Assignment) (p : List String) (w : ℚ)
    (hl : ∀ a ∈ l, 0 < a.weight) (hw : 0 < w) :
    ∀ a ∈ accumulate l p w, 0 < a.weight := by
  intro a ha
  unfold accumulate at ha
  by_cases hany : (l.any fun b => pathEquals b.path p) = true
  · rw [if_pos hany] at ha
    exact addToFirst_pos p w l hl hw a ha
  · rw [if_neg hany] at ha
    rcases List.mem_append.mp ha with ha2 | ha2
    · exact hl a ha2
    · rw [List.mem_singleton] at ha2
      subst ha2
      exact hw

theorem assignStep_pos (mapping : Mapping) (hm : mapping ≠ [])
    (acc : List Assignment) (i : RawItem)
    (hacc : ∀ a ∈ acc, 0 < a.weight) :
    ∀ a ∈ assignStep mapping acc i, 0 < a.weight := by
  intro a ha
  rcases i with ⟨k, v⟩
  cases k with
  | none => exact hacc a (by simpa [assignStep] using ha)
  | some key =>
    cases v with
    | none => exact hacc a (by simpa [assignStep] using ha)
    | some value =>
      simp only [assignStep] at ha
      rw [if_neg hm] at ha
      split at ha
      · split at ha
        · split at ha
          · split at ha
            · exact accumulate_pos acc _ _ hacc (by assumption) a ha
            · exact hacc a ha
          · exact hacc a ha
        · exact hacc a ha
      · exact hacc a ha

theorem assignItems_pos (mapping : Mapping) (hm : mapping ≠ []) :
    ∀ (items : List RawItem) (acc : List Assignment),
    (∀ a ∈ acc, 0 < a.weight) →
    ∀ a ∈ assignItems mapping items acc, 0 < a.weight := by
  intro items
  induction items with
  | nil => intro acc hacc; simpa [assignItems] using hacc
  | cons i rest ih =>
    intro acc hacc
    have hstep : assignItems mapping (i :: rest) acc =
        assignItems mapping rest (assignStep mapping acc i) := by
      simp [assignItems]
    rw [hstep]
    exact ih (assignStep mapping acc i) (assignStep_pos mapping hm acc i hacc)

/-- Claim C4 counterexample: with the empty identity mapping, an item with a
negative numeric value produces an Assignment with weight -500, which is not
positive — the identity branch of assignItems performs no positivity check. -/
theorem assigner_positive_counterexample :
    assignItems [] [⟨some "K", some (-5)⟩] [] = [⟨["K"], -500⟩] ∧
      ¬ (0 : ℚ) < (-500 : ℚ) := by
  constructor
  · norm_num +decide [assignItems, assignStep, accumulate, addToFirst, pathEquals,
      List.foldl, List.any]
  · norm_num

/-- Claim C4 amended: every Assignment produced by assignItems through a
non-empty mapping table has strictly positive weight; only the empty
identity mapping lets non-positive weights through. -/
theorem assigner_positive_amended (mapping : Mapping) (items : List RawItem)
    (hm : mapping ≠ []) :
    ∀ a ∈ assignItems mapping items [], 0 < a.weight :=
  assignItems_pos mapping hm items [] (by simp)

/-- Witness for the amended C4 at a concrete mapping and item list. -/
theorem assigner_positive_amended_witness :
    0 < (Assignment.mk ["Stock"] 3000).weight := by
  have h := assigner_positive_amended [("1", .single "Stock")]
    [⟨some "1", some 30⟩] (by simp)
  refine h ⟨["Stock"], 3000⟩ ?_
  have e : assignItems [("1", .single "Stock")] [⟨some "1", some 30⟩] [] =
      [⟨["Stock"], 3000⟩] := by
    norm_num +decide [assignItems, assignStep, mlookup, MappingTarget.toPath,
      accumulate, addToFirst, pathEquals, List.foldl, List.any]
  rw [e]
  simp

/-! ### Claim C5: where rounding happens -/

/-- Claim C5 counterexample: an item with value 1/8 produces the fractional
weight 12.5 = 25/2, not the claimed round(value * 100) = 13 — the mapper does
not round at mapping time. -/
theorem mapper_rounding_counterexample :
    assignItems [] [⟨some "K", some (1/8)⟩] [] = [⟨["K"], 25/2⟩] ∧
      ((25 : ℚ)/2) ≠ ((jsRound ((1/8 : ℚ) * 100) : ℤ) : ℚ) := by
  constructor
  · norm_num +decide [assignItems, assignStep, accumulate, addToFirst, pathEquals,
      List.foldl, List.any]
  · norm_num [jsRound]

/-- Claim C5 amended: the mapper derives the weight as value * 100 exactly,
with no rounding at mapping time (both in the identity branch and in the
mapped branch); rounding to the nearest integer happens later, in
normalizeBreakdown, whose output weights are always integers. -/
theorem mapper_weight_amended :
    (∀ (k : String) (v : ℚ), k ≠ "" → v ≠ 0 →
      assignItems [] [⟨some k, some v⟩] [] = [⟨[k], v * 100⟩]) ∧
    (∀ (k : String) (v : ℚ) (mapping : Mapping) (tgt : MappingTarget)
      (p : List String),
      k ≠ "" → 0 < v → mapping ≠ [] → mlookup mapping k = some tgt →
      tgt.toPath = some p →
      assignItems mapping [⟨some k, some v⟩] [] = [⟨p, v * 100⟩]) ∧
    (∀ x, ∀ a ∈ normalizeBreakdown x, ∃ n : ℤ, a.weight = (n : ℚ)) := by
  refine ⟨?_, ?_, normalizeBreakdown_mem_int⟩
  · intro k v hk hv
    simp [assignItems, assignStep, hk, hv, accumulate]
  · intro k v mapping tgt p hk hv hm hlk htp
    have hw : (0 : ℚ) < v * 100 := by positivity
    simp [assignItems, assignStep, hk, ne_of_gt hv, if_neg hm, hlk, htp, hw,
      accumulate]

/-- Witness for the amended C5 at a concrete item. -/
theorem mapper_weight_amended_witness :
    assignItems [] [⟨some "K", some (30 : ℚ)⟩] [] = [⟨["K"], (3000 : ℚ)⟩] := by
  have h := mapper_weight_amended.1 "K" 30 (by decide) (by norm_num)
  rw [h]
  norm_num

/-! ### Claim C6: accumulation of duplicate paths -/

theorem accumulate_singleton_same (p : List String) (W w : ℚ) :
    accumulate [⟨p, W⟩] p w = [⟨p, W + w⟩] := by
  have hp : pathEquals p p = true := (pathEquals_iff p p).mpr rfl
  simp [accumulate, addToFirst, hp]

/-- All items mapping to path p through a non-empty table accumulate onto a
single existing assignment for p. -/
theorem assignItems_acc_same_path (mapping : Mapping) (p : List String)
    (hm : mapping ≠ []) :
    ∀ (items : List RawItem) (W : ℚ),
    (∀ i ∈ items, ∃ k v tgt, i.key = some k ∧ i.value = some v ∧ k ≠ "" ∧
      0 < v ∧ mlookup mapping k = some tgt ∧ tgt.toPath = some p) →
    assignItems mapping items [⟨p, W⟩] =
      [⟨p, W + (items.map fun i => (i.value.getD 0) * 100).sum⟩] := by
  intro items
  induction items with
  | nil => intro W _; simp [assignItems]
  | cons i rest ih =>
    intro W h
    obtain ⟨k, v, tgt, hk, hv, hk0, hv0, hlk, htp⟩ := h i (by simp)
    have hrest := fun j (hj : j ∈ rest) => h j (List.mem_cons_of_mem i hj)
    have hstep : assignStep mapping [⟨p, W⟩] i = [⟨p, W + v * 100⟩] := by
      rcases i with ⟨ik, iv⟩
      simp only [Option.some.injEq] at hk hv
      subst hk
      subst hv
      have hw : (0 : ℚ) < v * 100 := by positivity
      simp [assignStep, hk0, ne_of_gt hv0, if_neg hm, hlk, htp, hw,
        accumulate_singleton_same]
    have hfold : assignItems mapping (i :: rest) [⟨p, W⟩] =
        assignItems mapping rest (assignStep mapping [⟨p, W⟩] i) := by
      simp [assignItems]
    rw [hfold, hstep, ih (W + v * 100) hrest]
    have hveq : i.value.getD 0 = v := by rw [hv]; rfl
    simp [hveq]
    ring

/-- Claim C6: when every raw item maps to the same category path (through a
non-empty mapping table, with positive values), the assigner output is the
single Assignment carrying the sum of the individual mapped weights. -/
theorem accumulation_invariant (mapping : Mapping) (items : List RawItem)
    (p : List String) (hm : mapping ≠ []) (hne : items ≠ [])
    (h : ∀ i ∈ items, ∃ k v tgt, i.key = some k ∧ i.value = some v ∧ k ≠ "" ∧
      0 < v ∧ mlookup mapping k = some tgt ∧ tgt.toPath = some p) :
    assignItems mapping items [] =
      [⟨p, (items.map fun i => (i.value.getD 0) * 100).sum⟩] := by
  cases items with
  | nil => exact absurd rfl hne
  | cons i rest =>
    obtain ⟨k, v, tgt, hk, hv, hk0, hv0, hlk, htp⟩ := h i (by simp)
    have hrest := fun j (hj : j ∈ rest) => h j (List.mem_cons_of_mem i hj)
    have hstep : assignStep mapping [] i = [⟨p, v * 100⟩] := by
      rcases i with ⟨ik, iv⟩
      simp only [Option.some.injEq] at hk hv
      subst hk
      subst hv
      have hw : (0 : ℚ) < v * 100 := by positivity
      simp [assignStep, hk0, ne_of_gt hv0, if_neg hm, hlk, htp, hw, accumulate]
    have hfold : assignItems mapping (i :: rest) [] =
        assignItems mapping rest (assignStep mapping [] i) := by
      simp [assignItems]
    rw [hfold, hstep, assignItems_acc_same_path mapping p hm rest (v * 100) hrest]
    have hveq : i.value.getD 0 = v := by rw [hv]; rfl
    simp [hveq]

/-- Witness for C6: Scenario D of the spec — mapping {1: Stock, 11: Stock},
items (key 1, value 30) and (key 11, value 50) produce the single Assignment
{path [Stock], weight 8000}. -/
theorem accumulation_invariant_witness :
    assignItems [("1", .single "Stock"), ("11", .single "Stock")]
      [⟨some "1", some 30⟩, ⟨some "11", some 50⟩] [] =
      [⟨["Stock"], 8000⟩] := by
  have h := accumulation_invariant
    [("1", .single "Stock"), ("11", .single "Stock")]
    [⟨some "1", some 30⟩, ⟨some "11", some 50⟩] ["Stock"]
    (by simp) (by simp)
    (by
      intro i hi
      simp only [List.mem_cons, List.not_mem_nil, or_false] at hi
      rcases hi with rfl | rfl
      · exact ⟨"1", 30, .single "Stock", rfl, rfl, by decide, by norm_num,
          by simp [mlookup], rfl⟩
      · exact ⟨"11", 50, .single "Stock", rfl, rfl, by decide, by norm_num,
          by simp [mlookup], rfl⟩)
  rw [h]
  norm_num

/-! ### Claim C7: the truncation algorithm against its spec description -/

/-- Modelled from the spec text of the normalizer, step 3: walk the sorted
list accumulating a running total; the first entry whose addition would push
the running total past 10000 is truncated down to exactly the remaining
headroom and every entry after it is dropped entirely; entries before the
truncation point are unaffected. -/
def specWalk (budget : ℚ) : List Assignment → List Assignment
  | [] => []
  | a :: l =>
    if 10000 < budget + a.weight then [⟨a.path, 10000 - budget⟩]
    else a :: specWalk (budget + a.weight) l

/-- Modelled from the spec text of the normalizer, steps 1 to 4: drop
non-positive entries, round, truncate via the walk when the sum exceeds
10000 after a stable descending sort, and return the filtered rounded
list. -/
def normalizeSpec (x : List Assignment) : List Assignment :=
  let rounded := (x.filter fun a => 0 < a.weight).map roundAssignment
  let adjusted :=
    if 10000 < totalWeight rounded then specWalk 0 (sortDesc rounded)
    else rounded
  adjusted.filter fun a => 0 < a.weight

theorem normalizeSpec_eq (x : List Assignment) :
    normalizeSpec x =
      (if 10000 < totalWeight ((x.filter fun a => 0 < a.weight).map roundAssignment)
       then specWalk 0 (sortDesc ((x.filter fun a => 0 < a.weight).map roundAssignment))
       else (x.filter fun a => 0 < a.weight).map roundAssignment).filter
        fun a => 0 < a.weight := rfl

theorem truncateLoop_filter_eq_specWalk (l : List Assignment) :
    ∀ budget : ℚ, (∀ a ∈ l, 0 ≤ a.weight) →
    (truncateLoop budget l).filter (fun a => 0 < a.weight) =
      (specWalk budget l).filter fun a => 0 < a.weight := by
  induction l with
  | nil => intro budget _; rfl
  | cons b m ih =>
    intro budget h
    have hm : ∀ c ∈ m, 0 ≤ c.weight := fun c hc => h c (by simp [hc])
    by_cases hcut : (10000 : ℚ) < budget + b.weight
    · simp only [truncateLoop, specWalk, hcut, if_true]
      rw [filter_pos_cons, filter_pos_cons]
      have hzero : (truncateLoop 10000 m).filter (fun c => 0 < c.weight) = [] := by
        rw [List.filter_eq_nil_iff]
        intro c hc
        simp [truncateLoop_budget_full m hm c hc]
      by_cases hpos : 0 < (Assignment.mk b.path (10000 - budget)).weight
      · rw [if_pos hpos, if_pos hpos, hzero]
        rfl
      · rw [if_neg hpos, if_neg hpos, hzero]
        rfl
    · simp only [truncateLoop, specWalk, hcut, if_false]
      rw [filter_pos_cons, filter_pos_cons, ih (budget + b.weight) hm]

theorem insertDesc_perm (a : Assignment) (l : List Assignment) :
    (insertDesc a l).Perm (a :: l) := by
  induction l with
  | nil => rfl
  | cons b m ih =>
    by_cases hle : b.weight ≤ a.weight
    · simp [insertDesc, hle]
    · simp only [insertDesc, hle, if_false]
      exact (ih.cons b).trans (List.Perm.swap a b m)

theorem sortDesc_perm (l : List Assignment) : (sortDesc l).Perm l := by
  induction l with
  | nil => rfl
  | cons a m ih => exact (insertDesc_perm a (sortDesc m)).trans (ih.cons a)

/-- Descending order on weights, as produced by the stable sort. -/
def WeightsDesc (l : List Assignment) : Prop :=
  l.Pairwise fun a b => b.weight ≤ a.weight

theorem insertDesc_sorted (a : Assignment) (l : List Assignment)
    (h : WeightsDesc l) : WeightsDesc (insertDesc a l) := by
  induction l with
  | nil => simp [insertDesc, WeightsDesc]
  | cons b m ih =>
    rw [WeightsDesc, List.pairwise_cons] at h
    by_cases hle : b.weight ≤ a.weight
    · simp only [insertDesc, hle, if_true]
      rw [WeightsDesc, List.pairwise_cons]
      refine ⟨?_, List.pairwise_cons.mpr h⟩
      intro c hc
      rcases List.mem_cons.mp hc with rfl | hc2
      · exact hle
      · exact le_trans (h.1 c hc2) hle
    · simp only [insertDesc, hle, if_false]
      rw [WeightsDesc, List.pairwise_cons]
      refine ⟨?_, ih h.2⟩
      intro c hc
      rcases (mem_insertDesc c a m).mp hc with rfl | hc2
      · exact le_of_lt (not_le.mp hle)
      · exact h.1 c hc2

theorem sortDesc_sorted (l : List Assignment) : WeightsDesc (sortDesc l) := by
  induction l with
  | nil => simp [sortDesc, WeightsDesc]
  | cons a m ih => exact insertDesc_sorted a (sortDesc m) ih

/-- Claim C7: normalizeBreakdown realizes the spec description of truncation:
it equals the spec-side normalizer (stable descending sort, walk with a
running total, truncate the first overflowing entry to the remaining
headroom, drop all later entries), the sort is a descending-ordered
permutation, and Scenario C computes as claimed. -/
theorem normalize_truncation_spec :
    (∀ x, normalizeBreakdown x = normalizeSpec x) ∧
    (∀ l : List Assignment, (sortDesc l).Perm l ∧ WeightsDesc (sortDesc l)) ∧
    normalizeBreakdown [⟨["A"], 9000⟩, ⟨["B"], 5000⟩] =
      [⟨["A"], 9000⟩, ⟨["B"], 1000⟩] := by
  refine ⟨?_, fun l => ⟨sortDesc_perm l, sortDesc_sorted l⟩, ?_⟩
  · intro x
    rw [normalizeBreakdown_eq, normalizeSpec_eq]
    by_cases hbig : 10000 <
        totalWeight ((x.filter fun a => 0 < a.weight).map roundAssignment)
    · rw [if_pos hbig, if_pos hbig]
      exact truncateLoop_filter_eq_specWalk _ 0 fun c hc =>
        (mem_rounded_facts x c ((mem_sortDesc c _).mp hc)).1
    · rw [if_neg hbig, if_neg hbig]
  · norm_num [normalizeBreakdown, totalWeight, roundAssignment, jsRound, sortDesc,
      insertDesc, truncateLoop, List.filter]

/-! ### Claim C8: fund versus stock orchestration after embedding -/

def stockCexInput : ResultsMap :=
  [("A", ⟨"A", [⟨["P"], 10000⟩]⟩),
   ("C", ⟨"C", [⟨["X"], 10000⟩]⟩),
   ("T", ⟨"T", [⟨["Q"], 10000⟩]⟩)]

def stockCexConfig : EmbeddedTaxonomyConfig := ⟨true, "A", "P", "C", "T"⟩

/-- Claim C8 counterexample: classifyStock hands the post-embedding
assignment lists to the store without normalizing them.  Here the stock path
writes a list with total weight 20000 for taxonomy T, while normalization
would have truncated it to total 10000 — so the stock write is not the
normalized list the claim promises. -/
theorem stock_write_not_normalized_counterexample :
    stockWrites (fun s => s == "T")
        (applyEmbeddedTaxonomies stockCexInput [stockCexConfig]) =
      [("T", [⟨["Q"], 10000⟩, ⟨["P", "X"], 10000⟩])] ∧
    totalWeight [⟨["Q"], 10000⟩, ⟨["P", "X"], 10000⟩] = 20000 ∧
    normalizeBreakdown [⟨["Q"], 10000⟩, ⟨["P", "X"], 10000⟩] ≠
      [⟨["Q"], 10000⟩, ⟨["P", "X"], 10000⟩] := by
  refine ⟨?_, ?_, ?_⟩
  · norm_num +decide [applyEmbeddedTaxonomies, applyOneEmbedding, mapGet,
      mapSetAssignments, findCategoryWeight, isCategoryEntry, pathEquals, jsRound,
      stockCexInput, stockCexConfig, stockWrites, List.foldl, List.filter,
      List.filterMap, List.zip]
  · norm_num [totalWeight]
  · norm_num [normalizeBreakdown, totalWeight, roundAssignment, jsRound, sortDesc,
      insertDesc, truncateLoop, List.filter]

/-- Claim C8 amended: the stock orchestration matches the fund orchestration
except for the stock-mode assigner and for the final write: the fund path
hands normalizeBreakdown of each active taxonomy to the store, the stock
path hands the same lists unnormalized — fund writes are exactly the
normalization of stock writes. -/
theorem stock_fund_writes_relation (active : String → Bool)
    (results : ResultsMap) (configs : List EmbeddedTaxonomyConfig) :
    fundWrites active (applyEmbeddedTaxonomies results configs) =
      (stockWrites active (applyEmbeddedTaxonomies results configs)).map
        fun e => (e.1, normalizeBreakdown e.2) := by
  generalize applyEmbeddedTaxonomies results configs = m
  induction m with
  | nil => rfl
  | cons e rest ih =>
    by_cases ha : active e.1 = true
    · simp [fundWrites, stockWrites, ha] at ih ⊢
      exact ih
    · simp [fundWrites, stockWrites, Bool.of_not_eq_true ha] at ih ⊢
      exact ih

/-! ### Claim C3: path uniqueness -/

theorem pathsUnique_iff (l : List Assignment) :
    pathsUnique l = true ↔ l.Pairwise fun a b => a.path ≠ b.path := by
  induction l with
  | nil => simp [pathsUnique]
  | cons a m ih =>
    rw [List.pairwise_cons, ← ih]
    simp only [pathsUnique, Bool.and_eq_true, Bool.not_eq_true', List.any_eq_false]
    constructor
    · rintro ⟨h1, h2⟩
      refine ⟨fun b hb he => ?_, h2⟩
      have hb2 := h1 b hb
      rw [(pathEquals_iff a.path b.path).mpr he] at hb2
      exact absurd hb2 (by simp)
    · rintro ⟨h1, h2⟩
      refine ⟨fun b hb => ?_, h2⟩
      exact fun hb2 => h1 b hb ((pathEquals_iff _ _).mp hb2)

theorem addToFirst_paths (p : List String) (w : ℚ) :
    ∀ l : List Assignment,
      (addToFirst l p w).map (fun a => a.path) = l.map fun a => a.path := by
  intro l
  induction l with
  | nil => rfl
  | cons a m ih =>
    by_cases h : pathEquals a.path p = true
    · simp [addToFirst, h]
    · simp [addToFirst, h, ih]

theorem accumulate_pairwise (l : List Assignment) (p : List String) (w : ℚ)
    (h : l.Pairwise fun a b => a.path ≠ b.path) :
    (accumulate l p w).Pairwise fun a b => a.path ≠ b.path := by
  unfold accumulate
  by_cases hany : (l.any fun a => pathEquals a.path p) = true
  · rw [if_pos hany]
    have h2 : ((addToFirst l p w).map fun a => a.path).Pairwise (· ≠ ·) := by
      rw [addToFirst_paths]
      exact List.pairwise_map.mpr h
    exact List.pairwise_map.mp h2
  · rw [if_neg hany]
    rw [List.pairwise_append]
    refine ⟨h, List.pairwise_singleton _ _, ?_⟩
    intro a ha b hb
    rw [List.mem_singleton] at hb
    subst hb
    intro he
    exact hany (List.any_eq_true.mpr ⟨a, ha, (pathEquals_iff _ _).mpr he⟩)

theorem assignStep_pairwise (mapping : Mapping) (acc : List Assignment)
    (i : RawItem) (h : acc.Pairwise fun a b => a.path ≠ b.path) :
    (assignStep mapping acc i).Pairwise fun a b => a.path ≠ b.path := by
  rcases i with ⟨k, v⟩
  cases k with
  | none => simpa [assignStep] using h
  | some key =>
    cases v with
    | none => simpa [assignStep] using h
    | some value =>
      simp only [assignStep]
      split
      · split
        · exact accumulate_pairwise acc _ _ h
        · split
          · split
            · split
              · exact accumulate_pairwise acc _ _ h
              · exact h
            · exact h
          · exact h
      · exact h

theorem assignItems_pairwise (mapping : Mapping) :
    ∀ (items : List RawItem) (acc : List Assignment),
    acc.Pairwise (fun a b => a.path ≠ b.path) →
    (assignItems mapping items acc).Pairwise fun a b => a.path ≠ b.path := by
  intro items
  induction items with
  | nil => intro acc h; simpa [assignItems] using h
  | cons i rest ih =>
    intro acc h
    have hfold : assignItems mapping (i :: rest) acc =
        assignItems mapping rest (assignStep mapping acc i) := by
      simp [assignItems]
    rw [hfold]
    exact ih (assignStep mapping acc i) (assignStep_pairwise mapping acc i h)

theorem mapGet_mapSetAssignments (m : ResultsMap) (k k2 : String)
    (l : List Assignment) :
    mapGet (mapSetAssignments m k l) k2 =
      if k2 = k then (mapGet m k).map fun r => (⟨r.taxonomyId, l⟩ : TaxonomyResult)
      else mapGet m k2 := by
  induction m with
  | nil => by_cases h : k2 = k <;> simp [mapSetAssignments, mapGet, h]
  | cons e rest ih =>
    have hcons : mapSetAssignments (e :: rest) k l =
        (if e.1 = k then (e.1, (⟨e.2.taxonomyId, l⟩ : TaxonomyResult)) else e) ::
          mapSetAssignments rest k l := rfl
    have hhead : (if e.1 = k then (e.1, (⟨e.2.taxonomyId, l⟩ : TaxonomyResult))
        else e) = (e.1, if e.1 = k then ⟨e.2.taxonomyId, l⟩ else e.2) := by
      by_cases h : e.1 = k <;> simp [h]
    rw [hcons, hhead]
    by_cases hk : k2 = k
    · subst hk
      by_cases h1 : e.1 = k2
      · simp [mapGet, h1, ih]
      · simp [mapGet, h1, ih]
    · by_cases h1 : e.1 = k2
      · have h2 : ¬ e.1 = k := fun hc => hk (by rw [← h1, hc])
        simp [mapGet, h1, h2, hk, ih]
      · simp [mapGet, h1, hk, ih]

theorem applyOneEmbedding_pairwise (results : ResultsMap)
    (cfg : EmbeddedTaxonomyConfig)
    (hall : ∀ k r, mapGet results k = some r →
      r.assignments.Pairwise fun a b => a.path ≠ b.path)
    (hfresh : ∀ cr tr, mapGet results cfg.childTaxonomy = some cr →
      mapGet results cfg.targetTaxonomy = some tr →
      ∀ c ∈ cr.assignments, ∀ a ∈ tr.assignments,
        a.path ≠ cfg.parentCategory :: c.path) :
    ∀ k r, mapGet (applyOneEmbedding results cfg) k = some r →
      r.assignments.Pairwise fun a b => a.path ≠ b.path := by
  intro k r hk
  simp only [applyOneEmbedding] at hk
  split at hk
  · exact hall k r hk
  · split at hk
    · rename_i pr cr tr hpr hcr htr
      split at hk
      · exact hall k r hk
      · rw [mapGet_mapSetAssignments] at hk
        by_cases hkt : k = cfg.targetTaxonomy
        · rw [if_pos hkt, htr] at hk
          simp only [Option.map_some', Option.some.injEq] at hk
          subst hk
          rw [List.pairwise_append]
          refine ⟨(hall _ tr htr).filter _, ?_, ?_⟩
          · refine List.pairwise_map.mpr ?_
            exact (hall _ cr hcr).imp fun hne he => hne (by injection he)
          · intro a ha b hb
            obtain ⟨c, hc, rfl⟩ := List.mem_map.mp hb
            exact hfresh cr tr hcr htr c hc a (List.mem_of_mem_filter ha)
        · rw [if_neg hkt] at hk
          exact hall k r hk
    · exact hall k r hk

def dupInput : ResultsMap :=
  [("A", ⟨"A", [⟨["P"], 5000⟩]⟩),
   ("C", ⟨"C", [⟨["X"], 10000⟩]⟩),
   ("T", ⟨"T", [⟨["P"], 5000⟩, ⟨["Q"], 5000⟩]⟩)]

def dupConfig : EmbeddedTaxonomyConfig := ⟨true, "A", "P", "C", "T"⟩

/-- Claim C3 counterexample: two active embedding configs with the same
parent category, child and target (parent distinct from target) append the
embedded assignment [P, X] twice into taxonomy T, so the resulting
TaxonomyResult contains two Assignments with identical paths. -/
theorem paths_unique_counterexample :
    pathsUnique (((mapGet (applyEmbeddedTaxonomies dupInput [dupConfig, dupConfig])
      "T").getD ⟨"T", []⟩).assignments) = false := by
  norm_num +decide [applyEmbeddedTaxonomies, applyOneEmbedding, mapGet,
    mapSetAssignments, findCategoryWeight, isCategoryEntry, pathEquals, jsRound,
    dupInput, dupConfig, pathsUnique, List.foldl, List.filter, List.zip, List.any]

/-- Claim C3 amended: the Taxonomy Assigner's output never contains two
Assignments with identical paths, and one embedding step preserves path
uniqueness provided no embedded path (parentCategory prefixed to a child
path) already occurs in the target; without that proviso the append can
duplicate paths, as the counterexample shows. -/
theorem paths_unique_amended :
    (∀ (mapping : Mapping) (items : List RawItem),
      pathsUnique (assignItems mapping items []) = true) ∧
    (∀ (results : ResultsMap) (cfg : EmbeddedTaxonomyConfig),
      (∀ k r, mapGet results k = some r → pathsUnique r.assignments = true) →
      (∀ cr tr, mapGet results cfg.childTaxonomy = some cr →
        mapGet results cfg.targetTaxonomy = some tr →
        ∀ c ∈ cr.assignments, ∀ a ∈ tr.assignments,
          a.path ≠ cfg.parentCategory :: c.path) →
      ∀ k r, mapGet (applyOneEmbedding results cfg) k = some r →
        pathsUnique r.assignments = true) := by
  constructor
  · intro mapping items
    rw [pathsUnique_iff]
    exact assignItems_pairwise mapping items [] List.Pairwise.nil
  · intro results cfg hall hfresh k r hk
    rw [pathsUnique_iff]
    refine applyOneEmbedding_pairwise results cfg ?_ hfresh k r hk
    intro k2 r2 h2
    rw [← pathsUnique_iff]
    exact hall k2 r2 h2

def uniqWitInput : ResultsMap :=
  [("T", ⟨"T", [⟨["P"], 5000⟩, ⟨["Q"], 5000⟩]⟩),
   ("C", ⟨"C", [⟨["X"], 10000⟩]⟩)]

def uniqWitConfig : EmbeddedTaxonomyConfig := ⟨true, "T", "P", "C", "T"⟩

/-- Witness for the amended C3: a concrete embedding step whose freshness
hypotheses hold, with unique paths in the produced target. -/
theorem paths_unique_amended_witness :
    pathsUnique [(⟨["Q"], (5000 : ℚ)⟩ : Assignment), ⟨["P", "X"], 5000⟩] = true := by
  have hget : mapGet (applyOneEmbedding uniqWitInput uniqWitConfig) "T" =
      some ⟨"T", [⟨["Q"], 5000⟩, ⟨["P", "X"], 5000⟩]⟩ := by
    norm_num +decide [applyOneEmbedding, mapGet, mapSetAssignments,
      findCategoryWeight, isCategoryEntry, pathEquals, jsRound, uniqWitInput,
      uniqWitConfig, List.filter, List.zip]
  have hall : ∀ k2 r2, mapGet uniqWitInput k2 = some r2 →
      pathsUnique r2.assignments = true := by
    intro k2 r2 h2
    simp only [uniqWitInput, mapGet] at h2
    split at h2
    · cases h2
      decide
    · split at h2
      · cases h2
        decide
      · exact Option.noConfusion h2
  have hfresh : ∀ cr tr, mapGet uniqWitInput uniqWitConfig.childTaxonomy = some cr →
      mapGet uniqWitInput uniqWitConfig.targetTaxonomy = some tr →
      ∀ c ∈ cr.assignments, ∀ a ∈ tr.assignments,
        a.path ≠ uniqWitConfig.parentCategory :: c.path := by
    intro cr tr hcr htr c hcm a ham
    simp +decide [uniqWitInput, uniqWitConfig, mapGet] at hcr htr
    subst hcr
    subst htr
    simp only [List.mem_cons, List.not_mem_nil, or_false] at hcm ham
    rcases hcm with rfl
    rcases ham with rfl | rfl <;> decide
  exact paths_unique_amended.2 uniqWitInput uniqWitConfig hall hfresh "T"
    ⟨"T", [⟨["Q"], 5000⟩, ⟨["P", "X"], 5000⟩]⟩ hget

/-! ### Claim C9: the embedding engine leaves the caller's map unchanged

applyEmbeddedTaxonomies first clones the incoming Map with a fresh
TaxonomyResult object and a fresh array copy (`[...value.assignments]`) per
entry, and then mutates only those fresh arrays (filter reassignment and
push on the clone's entries).  To reason about this aliasing we model the
assignment arrays as heap cells indexed by allocation order; the function
never mutates an Assignment object itself, so cells hold immutable lists. -/

/-- A heap of array objects holding assignment lists, in allocation order. -/
abbrev Heap := List (List Assignment)

/-- A TaxonomyResult whose assignments array is a reference into the heap. -/
structure HeapResult where
  taxonomyId : String
  ref : Nat
deriving DecidableEq, Repr

/-- The Map from taxonomy id to heap-allocated TaxonomyResult. -/
abbrev HeapMap := List (String × HeapResult)

def heapGet (h : Heap) (r : Nat) : List Assignment := h.getD r []

def hmapGet : HeapMap → String → Option HeapResult
  | [], _ => none
  | e :: rest, k => if e.1 = k then some e.2 else hmapGet rest k

/-- The clone loop of applyEmbeddedTaxonomies: each entry of the caller's
map gets a fresh array holding a copy of the caller's array contents. -/
def cloneStep (s : Heap × HeapMap) (e : String × HeapResult) : Heap × HeapMap :=
  (s.1 ++ [heapGet s.1 e.2.ref],
   s.2 ++ [(e.1, ⟨e.2.taxonomyId, s.1.length⟩)])

def cloneMap (h : Heap) (m : HeapMap) : Heap × HeapMap :=
  m.foldl cloneStep (h, [])

/-- One embedding config applied on the heap: reads go through the refs of
the cloned map; the single write replaces the contents of the target
entry's array. -/
def applyOneEmbeddingHeap (m : HeapMap) (h : Heap)
    (cfg : EmbeddedTaxonomyConfig) : Heap :=
  if cfg.active = false then h else
  match hmapGet m cfg.parentTaxonomy, hmapGet m cfg.childTaxonomy,
      hmapGet m cfg.targetTaxonomy with
  | some pr, some cr, some tr =>
    let parentWeight := findCategoryWeight (heapGet h pr.ref) cfg.parentCategory
    if parentWeight = 0 then h
    else
      let embeddedAssignments := (heapGet h cr.ref).map fun c =>
        (⟨cfg.parentCategory :: c.path,
          ((jsRound (parentWeight * c.weight / 10000) : ℤ) : ℚ)⟩ : Assignment)
      h.set tr.ref (((heapGet h tr.ref).filter fun a =>
        !(pathEquals a.path [cfg.parentCategory])) ++ embeddedAssignments)
  | _, _, _ => h

/-- applyEmbeddedTaxonomies on the heap: clone the caller's map, then thread
the heap through the config loop, returning the new heap and the new map. -/
def applyEmbeddedTaxonomiesHeap (h : Heap) (m : HeapMap)
    (configs : List EmbeddedTaxonomyConfig) : Heap × HeapMap :=
  (configs.foldl (applyOneEmbeddingHeap (cloneMap h m).2) (cloneMap h m).1,
   (cloneMap h m).2)

theorem heapGet_set_ne : ∀ (h : Heap) (n r : Nat) (v : List Assignment),
    r ≠ n → heapGet (h.set n v) r = heapGet h r := by
  intro h
  induction h with
  | nil => intro n r v _; rfl
  | cons a t ih =>
    intro n r v hne
    cases n with
    | zero =>
      cases r with
      | zero => exact absurd rfl hne
      | succ r2 => rfl
    | succ n2 =>
      cases r with
      | zero => rfl
      | succ r2 =>
        have : heapGet ((a :: t).set (n2 + 1) v) (r2 + 1) =
            heapGet (t.set n2 v) r2 := rfl
        rw [this, ih n2 r2 v fun hc => hne (by rw [hc])]
        rfl

theorem heapGet_append_left : ∀ (h tail : Heap) (r : Nat), r < h.length →
    heapGet (h ++ tail) r = heapGet h r := by
  intro h
  induction h with
  | nil => intro tail r hr; exact absurd hr (by simp)
  | cons a t ih =>
    intro tail r hr
    cases r with
    | zero => rfl
    | succ r2 =>
      have h2 : heapGet ((a :: t) ++ tail) (r2 + 1) = heapGet (t ++ tail) r2 := rfl
      rw [h2, ih tail r2 (by simpa using hr)]
      rfl

theorem hmapGet_mem : ∀ (m : HeapMap) (k : String) (v : HeapResult),
    hmapGet m k = some v → (k, v) ∈ m := by
  intro m
  induction m with
  | nil => intro k v h; exact Option.noConfusion h
  | cons e rest ih =>
    intro k v h
    simp only [hmapGet] at h
    split at h
    · rename_i he
      cases h
      rw [← he]
      simp
    · simp [ih k v h]

theorem cloneMap_foldl_facts (h : Heap) :
    ∀ (m : HeapMap) (s : Heap × HeapMap),
    h.length ≤ s.1.length →
    (∀ r < h.length, heapGet s.1 r = heapGet h r) →
    (∀ e ∈ s.2, h.length ≤ e.2.ref) →
    h.length ≤ (m.foldl cloneStep s).1.length ∧
    (∀ r < h.length, heapGet (m.foldl cloneStep s).1 r = heapGet h r) ∧
    (∀ e ∈ (m.foldl cloneStep s).2, h.length ≤ e.2.ref) := by
  intro m
  induction m with
  | nil => intro s h1 h2 h3; exact ⟨h1, h2, h3⟩
  | cons e rest ih =>
    intro s h1 h2 h3
    have hstep : (e :: rest).foldl cloneStep s = rest.foldl cloneStep (cloneStep s e) := by
      simp
    rw [hstep]
    refine ih (cloneStep s e) ?_ ?_ ?_
    · simp only [cloneStep, List.length_append]
      omega
    · intro r hr
      simp only [cloneStep]
      rw [heapGet_append_left s.1 _ r (by omega)]
      exact h2 r hr
    · intro e2 he2
      simp only [cloneStep, List.mem_append, List.mem_singleton] at he2
      rcases he2 with he2 | he2
      · exact h3 e2 he2
      · subst he2
        simpa using h1

theorem cloneMap_facts (h : Heap) (m : HeapMap) :
    h.length ≤ (cloneMap h m).1.length ∧
    (∀ r < h.length, heapGet (cloneMap h m).1 r = heapGet h r) ∧
    (∀ e ∈ (cloneMap h m).2, h.length ≤ e.2.ref) :=
  cloneMap_foldl_facts h m (h, []) (le_refl _) (fun _ _ => rfl) (by simp)

theorem applyOneEmbeddingHeap_frame (m1 : HeapMap) (cfg : EmbeddedTaxonomyConfig)
    (h : Heap) (L : Nat) (hrefs : ∀ e ∈ m1, L ≤ e.2.ref) :
    ∀ r < L, heapGet (applyOneEmbeddingHeap m1 h cfg) r = heapGet h r := by
  intro r hr
  simp only [applyOneEmbeddingHeap]
  split
  · rfl
  · split
    · rename_i pr cr tr hpr hcr htr
      split
      · rfl
      · refine heapGet_set_ne h tr.ref r _ ?_
        have hmem := hmapGet_mem m1 cfg.targetTaxonomy tr htr
        have := hrefs (cfg.targetTaxonomy, tr) hmem
        simp only at this
        omega
    · rfl

theorem foldl_embeddingHeap_frame (m1 : HeapMap) (L : Nat)
    (hrefs : ∀ e ∈ m1, L ≤ e.2.ref) :
    ∀ (configs : List EmbeddedTaxonomyConfig) (h : Heap),
    ∀ r < L, heapGet (configs.foldl (applyOneEmbeddingHeap m1) h) r = heapGet h r := by
  intro configs
  induction configs with
  | nil => intro h r hr; rfl
  | cons cfg rest ih =>
    intro h r hr
    have hstep : (cfg :: rest).foldl (applyOneEmbeddingHeap m1) h =
        rest.foldl (applyOneEmbeddingHeap m1) (applyOneEmbeddingHeap m1 h cfg) := by
      simp
    rw [hstep, ih (applyOneEmbeddingHeap m1 h cfg) r hr]
    exact applyOneEmbeddingHeap_frame m1 cfg h L hrefs r hr

/-- Claim C9: applyEmbeddedTaxonomies never mutates the caller's map: every
array that existed in the heap before the call holds exactly the Assignments
it held before, and the returned map refers only to freshly allocated
arrays (copy-on-write at the assignment-list level). -/
theorem embedding_engine_frame (h : Heap) (m : HeapMap)
    (configs : List EmbeddedTaxonomyConfig) (r : Nat) (hr : r < h.length) :
    heapGet (applyEmbeddedTaxonomiesHeap h m configs).1 r = heapGet h r ∧
    ∀ e ∈ (applyEmbeddedTaxonomiesHeap h m configs).2, h.length ≤ e.2.ref := by
  obtain ⟨hlen, hpre, hrefs⟩ := cloneMap_facts h m
  constructor
  · have hfold := foldl_embeddingHeap_frame (cloneMap h m).2 h.length hrefs
      configs (cloneMap h m).1 r hr
    exact hfold.trans (hpre r hr)
  · exact hrefs

/-- Witness for C9 at a concrete heap, map and config: the caller's array
(cell 0) is unchanged by an embedding run that does perform a write. -/
theorem embedding_engine_frame_witness :
    heapGet (applyEmbeddedTaxonomiesHeap [[⟨["Stock"], (8000 : ℚ)⟩]]
      [("asset", ⟨"asset", 0⟩)]
      [⟨true, "asset", "Stock", "asset", "asset"⟩]).1 0 =
      [⟨["Stock"], (8000 : ℚ)⟩] := by
  have h := (embedding_engine_frame [[⟨["Stock"], (8000 : ℚ)⟩]]
    [("asset", ⟨"asset", 0⟩)] [⟨true, "asset", "Stock", "asset", "asset"⟩]
    0 (by norm_num)).1
  rw [h]
  rfl

end PPClassifier
